import Mathlib

/-
Verification of the particle-filter estimation core of
ParticleFilter2.py (vehicle and obstacle position estimation).

The Python source is shallowly embedded over the real numbers:
float arrays become lists of reals, per-particle random draws become
explicit list or function parameters, and operations that can raise a
Python IndexError are modelled with Option.  Definitions follow the
source line by line; theorems settle the frozen claims about it.
-/

noncomputable section

open Real

/-- Python modulo on reals: for operands a and a positive modulus b,
the Python expression a % b equals a - b * floor (a / b). -/
def pymod (a b : ℝ) : ℝ := a - b * (⌊a / b⌋ : ℝ)

/-- Embedding of wrapToPi: reduce modulo 2*pi into the interval
from 0 inclusive to 2*pi exclusive, then subtract 2*pi when the result
exceeds pi. -/
def wrapToPi (d : ℝ) : ℝ :=
  let d2 := pymod d (2 * π)
  if d2 > π then d2 - 2 * π else d2

lemma pymod_nonneg (a b : ℝ) (hb : 0 < b) : 0 ≤ pymod a b := by
  have h1 : pymod a b = b * Int.fract (a / b) := by
    unfold pymod Int.fract
    rw [mul_sub, mul_div_cancel₀ a (ne_of_gt hb)]
  rw [h1]
  exact mul_nonneg (le_of_lt hb) (Int.fract_nonneg _)

lemma pymod_lt (a b : ℝ) (hb : 0 < b) : pymod a b < b := by
  have h1 : pymod a b = b * Int.fract (a / b) := by
    unfold pymod Int.fract
    rw [mul_sub, mul_div_cancel₀ a (ne_of_gt hb)]
  rw [h1]
  calc b * Int.fract (a / b) < b * 1 :=
        mul_lt_mul_of_pos_left (Int.fract_lt_one _) hb
    _ = b := mul_one b

lemma wrapToPi_mem (θ : ℝ) : wrapToPi θ ∈ Set.Ioc (-π) π := by
  have h0 := pymod_nonneg θ (2 * π) Real.two_pi_pos
  have h2 := pymod_lt θ (2 * π) Real.two_pi_pos
  have hπ := Real.pi_pos
  unfold wrapToPi
  by_cases h : pymod θ (2 * π) > π
  · simp only [h, if_pos]
    constructor
    · linarith
    · linarith
  · simp only [h, if_neg, not_false_iff]
    constructor
    · push_neg at h
      linarith
    · push_neg at h
      linarith

lemma wrapToPi_eq_self (θ : ℝ) (h : θ ∈ Set.Ioc (-π) π) : wrapToPi θ = θ := by
  obtain ⟨hl, hr⟩ := h
  have hπ := Real.pi_pos
  have h2π := Real.two_pi_pos
  by_cases h0 : 0 ≤ θ
  · have hfl : ⌊θ / (2 * π)⌋ = 0 := by
      rw [Int.floor_eq_zero_iff]
      constructor
      · exact div_nonneg h0 (le_of_lt h2π)
      · rw [div_lt_one h2π]
        linarith
    have hm : pymod θ (2 * π) = θ := by
      unfold pymod
      rw [hfl]
      push_cast
      ring
    unfold wrapToPi
    rw [hm]
    simp only [if_neg (not_lt.mpr hr)]
  · push_neg at h0
    have hfl : ⌊θ / (2 * π)⌋ = -1 := by
      rw [Int.floor_eq_iff]
      push_cast
      constructor
      · rw [le_div_iff₀ h2π]
        linarith
      · have : θ / (2 * π) < 0 := div_neg_of_neg_of_pos h0 h2π
        linarith
    have hm : pymod θ (2 * π) = θ + 2 * π := by
      unfold pymod
      rw [hfl]
      push_cast
      ring
    unfold wrapToPi
    rw [hm]
    have hgt : θ + 2 * π > π := by linarith
    rw [if_pos hgt]
    ring

/-- C5: for every real angle, wrapToPi lands in the half-open interval
from -pi exclusive to pi inclusive, and wrapToPi is idempotent. -/
theorem wrapToPi_range_and_idempotent :
    ∀ θ : ℝ, wrapToPi θ ∈ Set.Ioc (-π) π ∧ wrapToPi (wrapToPi θ) = wrapToPi θ :=
  fun θ => ⟨wrapToPi_mem θ, wrapToPi_eq_self _ (wrapToPi_mem θ)⟩

lemma wrapToPi_zero : wrapToPi 0 = 0 :=
  wrapToPi_eq_self 0 ⟨by linarith [Real.pi_pos], Real.pi_pos.le⟩

/-- Embedding of numpy arctan2 applied to real scalars, by quadrant. -/
def arctan2 (y x : ℝ) : ℝ :=
  if 0 < x then arctan (y / x)
  else if x < 0 then
    (if 0 ≤ y then arctan (y / x) + π else arctan (y / x) - π)
  else
    (if 0 < y then π / 2 else if y < 0 then -(π / 2) else 0)

/-- Predicted (range, bearing) of one particle for one landmark, from
source lines 93 and 94: the Euclidean distance from the particle position
to the landmark, and wrapToPi of arctan2 of the particle-minus-landmark
offsets minus the particle heading. -/
def predMeas (p : ℝ × ℝ × ℝ) (lm : ℝ × ℝ) : ℝ × ℝ :=
  (Real.sqrt ((p.1 - lm.1) ^ 2 + (p.2.1 - lm.2) ^ 2),
   wrapToPi (arctan2 (p.2.1 - lm.2) (p.1 - lm.1) - p.2.2))

lemma predMeas_example :
    predMeas ((0 : ℝ), (0 : ℝ), (0 : ℝ)) ((-1 : ℝ), (0 : ℝ)) = (1, 0) := by
  unfold predMeas arctan2
  norm_num [Real.arctan_zero, wrapToPi_zero]

/-- Embedding of normpdf (source lines 187 to 192).  The covariance is the
2 by 2 identity scaled by the scalar std argument, its determinant is
std * std, and its inverse is the diagonal matrix with entries
std / (std * std).  The mu argument has length 2, so the normalising power
of 2 * pi is (2 : ℝ) / 2. -/
def normpdf (x mu : ℝ × ℝ) (std : ℝ) : ℝ :=
  1 / ((2 * π) ^ ((2 : ℝ) / 2) * (std * std) ^ ((1 : ℝ) / 2)) *
    Real.exp ((-(1 : ℝ) / 2) *
      ((x.1 - mu.1) * (std / (std * std) * (x.1 - mu.1)) +
       (x.2 - mu.2) * (std / (std * std) * (x.2 - mu.2))))

/-- The factor multiplied into the weight of one particle for the landmark
at loop index i in ParticleFilter.update (source line 97): normpdf at the
predicted measurement, with the measurement noise vector R bound to the mu
parameter and the scalar entry of the flattened observation at index i
bound to the std parameter. -/
def likelihoodFactor (R : ℝ × ℝ) (z : ℕ → ℝ) (i : ℕ) (lm : ℝ × ℝ)
    (p : ℝ × ℝ × ℝ) : ℝ :=
  normpdf (predMeas p lm) R (z i)

/-- The likelihood factor as claim C1 words it: the two dimensional
Gaussian density of the difference between the predicted measurement and
the landmark observation pair, under the diagonal covariance with entries
taken from the measurement noise scale R (the standard formula of spec
section 4.5 with k = 2). -/
def claimedLikelihood (res obs R : ℝ × ℝ) : ℝ :=
  1 / ((2 * π) ^ ((2 : ℝ) / 2) * (R.1 * R.2) ^ ((1 : ℝ) / 2)) *
    Real.exp ((-(1 : ℝ) / 2) *
      ((res.1 - obs.1) ^ 2 / R.1 + (res.2 - obs.2) ^ 2 / R.2))

lemma two_rpow_half : ((2 : ℝ) * π) ^ ((2 : ℝ) / 2) = 2 * π := by
  rw [show ((2 : ℝ) / 2) = 1 by norm_num, Real.rpow_one]

lemma normpdf_closed_form (x mu : ℝ × ℝ) (std : ℝ) (h : 0 < std) :
    normpdf x mu std =
      1 / (2 * π * std) *
        Real.exp (-(((x.1 - mu.1) ^ 2 + (x.2 - mu.2) ^ 2) / (2 * std))) := by
  have hs : std ≠ 0 := ne_of_gt h
  have h3 : (std * std) ^ ((1 : ℝ) / 2) = std := by
    rw [← Real.sqrt_eq_rpow, Real.sqrt_mul_self h.le]
  unfold normpdf
  rw [two_rpow_half, h3]
  congr 1
  field_simp
  ring

def zC : ℕ → ℝ := fun _ => 4

/-- C1 counterexample: at the concrete state with particle (0, 0, 0),
landmark (-1, 0), R = (1, 1) and the flattened observation constantly 4,
the factor that update multiplies into the weight for landmark 0 differs
from the two dimensional Gaussian density of the difference between the
predicted measurement and the landmark observation pair under the diagonal
covariance built from R. -/
theorem likelihoodFactor_ne_claimedLikelihood :
    likelihoodFactor (1, 1) zC 0 (-1, 0) ((0 : ℝ), (0 : ℝ), (0 : ℝ)) ≠
      claimedLikelihood (predMeas ((0 : ℝ), (0 : ℝ), (0 : ℝ)) ((-1 : ℝ), (0 : ℝ)))
        (zC 0, zC 1) (1, 1) := by
  have hπ := Real.pi_pos
  have hL : likelihoodFactor (1, 1) zC 0 (-1, 0) ((0 : ℝ), (0 : ℝ), (0 : ℝ)) =
      Real.exp (-(1 / 8 : ℝ)) / (8 * π) := by
    unfold likelihoodFactor
    rw [predMeas_example, show zC 0 = 4 from rfl,
      normpdf_closed_form (1, 0) (1, 1) 4 (by norm_num)]
    norm_num
    field_simp
    ring
  have hR : claimedLikelihood (predMeas ((0 : ℝ), (0 : ℝ), (0 : ℝ)) ((-1 : ℝ), (0 : ℝ)))
      (zC 0, zC 1) (1, 1) = Real.exp (-(25 / 2 : ℝ)) / (2 * π) := by
    rw [predMeas_example]
    unfold claimedLikelihood zC
    rw [two_rpow_half]
    norm_num
    field_simp
    ring
  rw [hL, hR]
  have key : Real.exp (-(25 / 2 : ℝ)) * 4 < Real.exp (-(1 / 8 : ℝ)) := by
    rw [show (-(1 / 8 : ℝ)) = -(25 / 2) + 99 / 8 by norm_num, Real.exp_add]
    have h1 : (99 / 8 : ℝ) + 1 ≤ Real.exp (99 / 8) := Real.add_one_le_exp _
    have h2 : (0 : ℝ) < Real.exp (-(25 / 2 : ℝ)) := Real.exp_pos _
    nlinarith
  apply ne_of_gt
  rw [div_lt_div_iff₀ (by positivity) (by positivity)]
  nlinarith [mul_lt_mul_of_pos_right key Real.two_pi_pos]

def zA : ℕ → ℝ := fun k => if k < 2 then 1 else 7

def zB : ℕ → ℝ := fun k => if k < 2 then 4 else 7

/-- C2 counterexample: the two flattened observations zA and zB agree on
the (range, bearing) pair of landmark 1 (the entries at indices 2 and 3)
yet the factor that update multiplies into the weight for landmark 1
differs between them, because update reads the single scalar entry at
index 1 of the flattened observation, not the pair of landmark 1. -/
theorem update_factor_ignores_landmark_pair :
    zA 2 = zB 2 ∧ zA 3 = zB 3 ∧
      likelihoodFactor (1, 1) zA 1 (-1, 0) ((0 : ℝ), (0 : ℝ), (0 : ℝ)) ≠
        likelihoodFactor (1, 1) zB 1 (-1, 0) ((0 : ℝ), (0 : ℝ), (0 : ℝ)) := by
  refine ⟨rfl, rfl, ?_⟩
  have hπ := Real.pi_pos
  have hA : likelihoodFactor (1, 1) zA 1 (-1, 0) ((0 : ℝ), (0 : ℝ), (0 : ℝ)) =
      Real.exp (-(1 / 2 : ℝ)) / (2 * π) := by
    unfold likelihoodFactor
    rw [predMeas_example, show zA 1 = 1 from rfl,
      normpdf_closed_form (1, 0) (1, 1) 1 (by norm_num)]
    norm_num
    field_simp
    ring
  have hB : likelihoodFactor (1, 1) zB 1 (-1, 0) ((0 : ℝ), (0 : ℝ), (0 : ℝ)) =
      Real.exp (-(1 / 8 : ℝ)) / (8 * π) := by
    unfold likelihoodFactor
    rw [predMeas_example, show zB 1 = 4 from rfl,
      normpdf_closed_form (1, 0) (1, 1) 4 (by norm_num)]
    norm_num
    field_simp
    ring
  rw [hA, hB]
  have key : Real.exp (-(1 / 8 : ℝ)) < Real.exp (-(1 / 2 : ℝ)) * 4 := by
    have e1 : Real.exp (-(1 / 8 : ℝ)) = Real.exp (-(1 / 2 : ℝ)) * Real.exp (3 / 8 : ℝ) := by
      rw [← Real.exp_add]
      norm_num
    have e2 : Real.exp (3 / 8 : ℝ) < 4 := by
      have h4 : Real.exp (3 / 8 : ℝ) ≤ Real.exp 1 := by
        rw [Real.exp_le_exp]
        norm_num
      have h5 : Real.exp 1 < 2.7182818286 := Real.exp_one_lt_d9
      linarith
    rw [e1]
    exact mul_lt_mul_of_pos_left e2 (Real.exp_pos _)
  apply ne_of_gt
  rw [div_lt_div_iff₀ (by positivity) (by positivity)]
  nlinarith [mul_lt_mul_of_pos_right key Real.two_pi_pos]

/-- C1 (amended): for a positive covariance scalar z i, the factor that
update multiplies into the weight of a particle for the landmark at loop
index i equals the two dimensional Gaussian density of the difference
between the predicted (range, bearing) and the measurement noise vector R,
under the isotropic diagonal covariance whose two diagonal entries both
equal z i, the scalar entry of the flattened observation at index i. -/
theorem likelihoodFactor_gaussian (R : ℝ × ℝ) (z : ℕ → ℝ) (i : ℕ) (lm : ℝ × ℝ)
    (p : ℝ × ℝ × ℝ) (h : 0 < z i) :
    likelihoodFactor R z i lm p =
      1 / (2 * π * z i) *
        Real.exp (-((((predMeas p lm).1 - R.1) ^ 2 + ((predMeas p lm).2 - R.2) ^ 2) /
          (2 * z i))) :=
  normpdf_closed_form _ _ _ h

theorem likelihoodFactor_gaussian_witness :
    (0 : ℝ) < zC 0 ∧
      likelihoodFactor (1, 1) zC 0 (-1, 0) ((0 : ℝ), (0 : ℝ), (0 : ℝ)) =
        1 / (2 * π * zC 0) *
          Real.exp (-((((predMeas ((0 : ℝ), (0 : ℝ), (0 : ℝ)) ((-1 : ℝ), (0 : ℝ))).1 - 1) ^ 2 +
            ((predMeas ((0 : ℝ), (0 : ℝ), (0 : ℝ)) ((-1 : ℝ), (0 : ℝ))).2 - 1) ^ 2) /
              (2 * zC 0))) :=
  ⟨by norm_num [zC], likelihoodFactor_gaussian (1, 1) zC 0 (-1, 0)
    ((0 : ℝ), (0 : ℝ), (0 : ℝ)) (by norm_num [zC])⟩

/-- Embedding of the landmark loop of ParticleFilter.update (source lines
89 to 97): for the landmark at loop index i, every particle weight is
multiplied by the likelihood factor of its own predicted measurement. -/
def updateWeights (R : ℝ × ℝ) (z : ℕ → ℝ) (parts : List (ℝ × ℝ × ℝ)) :
    List (ℝ × ℝ) → ℕ → List ℝ → List ℝ
  | [], _, w => w
  | lm :: rest, i, w =>
      updateWeights R z parts rest (i + 1)
        (List.zipWith (fun wj pj => wj * likelihoodFactor R z i lm pj) w parts)

/-- Embedding of ParticleFilter.update (source lines 88 to 100): run the
landmark loop from index 0, add the floor 1e-300 to every weight, then
divide every weight by the sum of all the floored weights. -/
def update (R : ℝ × ℝ) (z : ℕ → ℝ) (lms : List (ℝ × ℝ))
    (parts : List (ℝ × ℝ × ℝ)) (w : List ℝ) : List ℝ :=
  ((updateWeights R z parts lms 0 w).map (fun x => x + 1e-300)).map
    (fun x => x / ((updateWeights R z parts lms 0 w).map (fun x => x + 1e-300)).sum)

lemma zipWith_get?_eq {α β γ : Type} (f : α → β → γ) :
    ∀ (l₁ : List α) (l₂ : List β) (j : ℕ) (a : α) (b : β),
      l₁.get? j = some a → l₂.get? j = some b →
      (List.zipWith f l₁ l₂).get? j = some (f a b)
  | [], _, j, a, b, h₁, _ => by simp at h₁
  | _ :: _, [], j, a, b, _, h₂ => by simp at h₂
  | x :: t₁, y :: t₂, 0, a, b, h₁, h₂ => by
      simp only [List.get?_cons_zero, Option.some.injEq] at h₁ h₂
      simp [h₁, h₂]
  | x :: t₁, y :: t₂, j + 1, a, b, h₁, h₂ => by
      simp only [List.get?_cons_succ] at h₁ h₂
      simpa using zipWith_get?_eq f t₁ t₂ j a b h₁ h₂

lemma updateWeights_get? (R : ℝ × ℝ) (z : ℕ → ℝ) (parts : List (ℝ × ℝ × ℝ)) :
    ∀ (lms : List (ℝ × ℝ)) (i : ℕ) (w : List ℝ) (j : ℕ) (wj : ℝ) (pj : ℝ × ℝ × ℝ),
      w.get? j = some wj → parts.get? j = some pj →
      (updateWeights R z parts lms i w).get? j =
        some (wj * ((lms.enumFrom i).map fun q => likelihoodFactor R z q.1 q.2 pj).prod)
  | [], i, w, j, wj, pj, hw, _ => by
      simpa [updateWeights] using hw
  | lm :: rest, i, w, j, wj, pj, hw, hp => by
      have hstep : (List.zipWith (fun wj pj => wj * likelihoodFactor R z i lm pj)
          w parts).get? j = some (wj * likelihoodFactor R z i lm pj) :=
        zipWith_get?_eq _ w parts j wj pj hw hp
      have ih := updateWeights_get? R z parts rest (i + 1)
        (List.zipWith (fun wj pj => wj * likelihoodFactor R z i lm pj) w parts)
        j (wj * likelihoodFactor R z i lm pj) pj hstep hp
      simp only [updateWeights, ih, List.enumFrom, List.map_cons, List.prod_cons,
        Option.some.injEq]
      ring

/-- C2 (amended): update consumes the flattened observation one scalar per
landmark, in landmark order: after the landmark loop, the weight of
particle j equals its carried-over weight from before the call multiplied
by the product, over the landmarks at loop indices k, of the likelihood
factor of the predicted measurement of particle j with the single scalar
entry z k of the flattened observation as the covariance argument.  The
update is an in-place multiplicative update of the running weight, not a
reset. -/
theorem updateWeights_multiplicative (R : ℝ × ℝ) (z : ℕ → ℝ)
    (parts : List (ℝ × ℝ × ℝ)) (lms : List (ℝ × ℝ)) (w : List ℝ)
    (j : ℕ) (wj : ℝ) (pj : ℝ × ℝ × ℝ)
    (hw : w.get? j = some wj) (hp : parts.get? j = some pj) :
    (updateWeights R z parts lms 0 w).get? j =
      some (wj * (lms.enum.map fun q => likelihoodFactor R z q.1 q.2 pj).prod) :=
  updateWeights_get? R z parts lms 0 w j wj pj hw hp

theorem updateWeights_multiplicative_witness :
    ([(2 : ℝ)].get? 0 = some 2) ∧
      ([((0 : ℝ), (0 : ℝ), (0 : ℝ))].get? 0 = some ((0 : ℝ), (0 : ℝ), (0 : ℝ))) ∧
      (updateWeights (1, 1) zC [((0 : ℝ), (0 : ℝ), (0 : ℝ))] [((-1 : ℝ), (0 : ℝ))] 0
          [(2 : ℝ)]).get? 0 =
        some (2 * (([((-1 : ℝ), (0 : ℝ))].enum.map fun q =>
          likelihoodFactor (1, 1) zC q.1 q.2 ((0 : ℝ), (0 : ℝ), (0 : ℝ))).prod)) :=
  ⟨rfl, rfl, updateWeights_multiplicative (1, 1) zC [((0 : ℝ), (0 : ℝ), (0 : ℝ))]
    [((-1 : ℝ), (0 : ℝ))] [(2 : ℝ)] 0 2 ((0 : ℝ), (0 : ℝ), (0 : ℝ)) rfl rfl⟩

lemma sum_map_div (l : List ℝ) (s : ℝ) : (l.map fun x => x / s).sum = l.sum / s := by
  induction l with
  | nil => simp
  | cons a t ih => simp [ih, add_div]

/-- C3: whenever the sum of the floored weights is nonzero, the weight
vector returned by update sums to 1 within 1e-9 (in the real model the sum
is exactly 1), for any particle count and any observation. -/
theorem update_sum_one (R : ℝ × ℝ) (z : ℕ → ℝ) (lms : List (ℝ × ℝ))
    (parts : List (ℝ × ℝ × ℝ)) (w : List ℝ)
    (h : ((updateWeights R z parts lms 0 w).map fun x => x + 1e-300).sum ≠ 0) :
    |(update R z lms parts w).sum - 1| ≤ 1e-9 := by
  unfold update
  rw [sum_map_div, div_self h]
  norm_num

theorem update_sum_one_witness :
    ((updateWeights (1, 1) (fun _ => (0 : ℝ)) [((0 : ℝ), (0 : ℝ), (0 : ℝ))] [] 0
        [(1 : ℝ)]).map fun x => x + 1e-300).sum ≠ 0 ∧
      |(update (1, 1) (fun _ => (0 : ℝ)) [] [((0 : ℝ), (0 : ℝ), (0 : ℝ))]
        [(1 : ℝ)]).sum - 1| ≤ 1e-9 := by
  have h : ((updateWeights (1, 1) (fun _ => (0 : ℝ)) [((0 : ℝ), (0 : ℝ), (0 : ℝ))] [] 0
      [(1 : ℝ)]).map fun x => x + 1e-300).sum ≠ 0 := by
    simp [updateWeights]
    norm_num
  exact ⟨h, update_sum_one (1, 1) (fun _ => (0 : ℝ)) [] [((0 : ℝ), (0 : ℝ), (0 : ℝ))]
    [(1 : ℝ)] h⟩

/-- Embedding of neff (source lines 54 and 55): one over the sum of the
squared weights. -/
def neff (weights : List ℝ) : ℝ := 1 / (weights.map (fun x => x * x)).sum

lemma sum_map_sq_sub (l : List ℝ) (c : ℝ) :
    (l.map fun x => (x - c) * (x - c)).sum =
      (l.map fun x => x * x).sum - 2 * c * l.sum + l.length * (c * c) := by
  induction l with
  | nil => simp
  | cons a t ih =>
      simp only [List.map_cons, List.sum_cons, List.length_cons]
      push_cast
      rw [ih]
      ring

lemma sum_map_mul_one_sub (l : List ℝ) :
    (l.map fun x => x * (1 - x)).sum = l.sum - (l.map fun x => x * x).sum := by
  induction l with
  | nil => simp
  | cons a t ih =>
      simp only [List.map_cons, List.sum_cons]
      rw [ih]
      ring

lemma sum_eq_zero_iff_forall (l : List ℝ) (h : ∀ x ∈ l, 0 ≤ x) :
    l.sum = 0 ↔ ∀ x ∈ l, x = 0 := by
  induction l with
  | nil => simp
  | cons a t ih =>
      have ha : 0 ≤ a := h a (List.mem_cons_self a t)
      have ht : ∀ x ∈ t, 0 ≤ x := fun x hx => h x (List.mem_cons_of_mem a hx)
      have hts : 0 ≤ t.sum := List.sum_nonneg ht
      simp only [List.sum_cons, List.mem_cons]
      constructor
      · intro h0
        have h1 : a = 0 := by linarith
        have h2 : t.sum = 0 := by linarith
        intro x hx
        rcases hx with rfl | hx
        · exact h1
        · exact ((ih ht).mp h2) x hx
      · intro hall
        have h1 : a = 0 := hall a (Or.inl rfl)
        have h2 : t.sum = 0 := (ih ht).mpr (fun x hx => hall x (Or.inr hx))
        rw [h1, h2, add_zero]

lemma sum_map_sq_eq_sum (l : List ℝ) (h : ∀ x ∈ l, x * x = x) :
    (l.map fun x => x * x).sum = l.sum := by
  have : l.map (fun x => x * x) = l.map id := List.map_congr_left h
  rw [this, List.map_id]

lemma exists_one_of_zero_one_sum (l : List ℝ) :
    (∀ x ∈ l, x = 0 ∨ x = 1) → l.sum = 1 →
    ∃ i, ∃ h : i < l.length, l.get ⟨i, h⟩ = 1 ∧
      ∀ m, ∀ hm : m < l.length, m ≠ i → l.get ⟨m, hm⟩ = 0 := by
  induction l with
  | nil => intro _ hs; simp at hs
  | cons a t ih =>
      intro hmem hs
      simp only [List.sum_cons] at hs
      rcases hmem a (List.mem_cons_self a t) with ha | ha
      · have hts : t.sum = 1 := by rw [ha] at hs; linarith
        obtain ⟨i, hi, h1, h0⟩ := ih (fun x hx => hmem x (List.mem_cons_of_mem a hx)) hts
        refine ⟨i + 1, by simpa using Nat.succ_lt_succ hi, by simpa using h1, ?_⟩
        intro m hm hne
        cases m with
        | zero => simpa using ha
        | succ m2 =>
            have hm2 : m2 < t.length := by simpa using hm
            have hne2 : m2 ≠ i := fun hh => hne (by rw [hh])
            simpa using h0 m2 hm2 hne2
      · have hts : t.sum = 0 := by rw [ha] at hs; linarith
        have htnn : ∀ x ∈ t, 0 ≤ x := by
          intro x hx
          rcases hmem x (List.mem_cons_of_mem a hx) with h | h
          · rw [h]
          · rw [h]; norm_num
        have hall : ∀ x ∈ t, x = 0 := (sum_eq_zero_iff_forall t htnn).mp hts
        refine ⟨0, by simp, by simpa using ha, ?_⟩
        intro m hm hne
        cases m with
        | zero => exact absurd rfl hne
        | succ m2 =>
            have hm2 : m2 < t.length := by simpa using hm
            have hx := hall (t.get ⟨m2, hm2⟩) (t.get_mem _ _)
            simpa using hx

/-- C6: neff returns one over the sum of the squared weights; for a
normalized non-negative weight vector it lies between 1 and the particle
count, equals the particle count exactly when all the weights are uniform,
and equals 1 exactly when one weight is 1 and all the others are 0. -/
theorem neff_spec (w : List ℝ) (hnn : ∀ x ∈ w, 0 ≤ x) (hsum : w.sum = 1) :
    neff w = 1 / (w.map fun x => x * x).sum ∧
    1 ≤ neff w ∧ neff w ≤ (w.length : ℝ) ∧
    (neff w = (w.length : ℝ) ↔ ∀ x ∈ w, x = 1 / (w.length : ℝ)) ∧
    (neff w = 1 ↔ ∃ i, ∃ h : i < w.length, w.get ⟨i, h⟩ = 1 ∧
      ∀ m, ∀ hm : m < w.length, m ≠ i → w.get ⟨m, hm⟩ = 0) := by
  have hne : w ≠ [] := by
    intro h
    rw [h] at hsum
    simp at hsum
  have hlen : 0 < w.length := List.length_pos.mpr hne
  have hnR : (0 : ℝ) < (w.length : ℝ) := by exact_mod_cast hlen
  set S2 := (w.map fun x => x * x).sum with hS2def
  have hkey1 : (w.map fun x => (x - 1 / (w.length : ℝ)) * (x - 1 / (w.length : ℝ))).sum
      = S2 - 1 / (w.length : ℝ) := by
    rw [sum_map_sq_sub w (1 / (w.length : ℝ)), hsum]
    field_simp
    ring
  have hq_nonneg : 0 ≤ (w.map fun x =>
      (x - 1 / (w.length : ℝ)) * (x - 1 / (w.length : ℝ))).sum := by
    apply List.sum_nonneg
    intro y hy
    obtain ⟨x, _, rfl⟩ := List.mem_map.mp hy
    exact mul_self_nonneg _
  have hlower : 1 / (w.length : ℝ) ≤ S2 := by linarith
  have hle1 : ∀ x ∈ w, x ≤ 1 := by
    intro x hx
    have := List.single_le_sum hnn x hx
    linarith
  have hkey2 : (w.map fun x => x * (1 - x)).sum = 1 - S2 := by
    rw [sum_map_mul_one_sub w, hsum]
  have hupper : S2 ≤ 1 := by
    have h0 : 0 ≤ (w.map fun x => x * (1 - x)).sum := by
      apply List.sum_nonneg
      intro y hy
      obtain ⟨x, hx, rfl⟩ := List.mem_map.mp hy
      exact mul_nonneg (hnn x hx) (by linarith [hle1 x hx])
    linarith
  have hS2pos : 0 < S2 := lt_of_lt_of_le (by positivity) hlower
  have hneff : neff w = 1 / S2 := rfl
  refine ⟨rfl, ?_, ?_, ?_, ?_⟩
  · rw [hneff, le_div_iff₀ hS2pos, one_mul]
    exact hupper
  · rw [hneff, div_le_iff₀ hS2pos]
    have h1 : (w.length : ℝ) * (1 / (w.length : ℝ)) = 1 := by field_simp
    have h2 := mul_le_mul_of_nonneg_left hlower hnR.le
    linarith
  · rw [hneff]
    constructor
    · intro h
      have hS2 : S2 = 1 / (w.length : ℝ) := by
        rw [div_eq_iff (ne_of_gt hS2pos)] at h
        field_simp
        nlinarith
      have hzero : (w.map fun x =>
          (x - 1 / (w.length : ℝ)) * (x - 1 / (w.length : ℝ))).sum = 0 := by
        rw [hkey1, hS2]
        ring
      have hall := (sum_eq_zero_iff_forall _ (by
        intro y hy
        obtain ⟨x, _, rfl⟩ := List.mem_map.mp hy
        exact mul_self_nonneg _)).mp hzero
      intro x hx
      have hx0 := hall _ (List.mem_map.mpr ⟨x, hx, rfl⟩)
      have := mul_self_eq_zero.mp hx0
      linarith [sub_eq_zero.mp this]
    · intro hall
      have hS2 : S2 = 1 / (w.length : ℝ) := by
        rw [hS2def]
        have hmap : w.map (fun x => x * x) =
            w.map (fun _ => 1 / (w.length : ℝ) * (1 / (w.length : ℝ))) := by
          apply List.map_congr_left
          intro x hx
          rw [hall x hx]
        rw [hmap]
        rw [List.map_const']
        rw [List.sum_replicate, nsmul_eq_mul]
        field_simp
      rw [hS2]
      rw [one_div_one_div]
  · rw [hneff]
    constructor
    · intro h
      have hS2 : S2 = 1 := by
        rw [div_eq_iff (ne_of_gt hS2pos)] at h
        linarith
      have hzero : (w.map fun x => x * (1 - x)).sum = 0 := by
        rw [hkey2, hS2]
        ring
      have hall := (sum_eq_zero_iff_forall _ (by
        intro y hy
        obtain ⟨x, hx, rfl⟩ := List.mem_map.mp hy
        exact mul_nonneg (hnn x hx) (by linarith [hle1 x hx]))).mp hzero
      have h01 : ∀ x ∈ w, x = 0 ∨ x = 1 := by
        intro x hx
        have hx0 := hall _ (List.mem_map.mpr ⟨x, hx, rfl⟩)
        rcases mul_eq_zero.mp hx0 with h | h
        · exact Or.inl h
        · right
          linarith [sub_eq_zero.mp (by linarith : (1 : ℝ) - x = 0)]
      exact exists_one_of_zero_one_sum w h01 hsum
    · rintro ⟨i, hi, h1, h0⟩
      have h01 : ∀ x ∈ w, x * x = x := by
        intro x hx
        obtain ⟨⟨m, hm⟩, rfl⟩ := List.mem_iff_get.mp hx
        by_cases hmi : m = i
        · subst hmi
          rw [h1]
          norm_num
        · rw [h0 m hm hmi]
          norm_num
      have hS2 : S2 = 1 := by
        rw [hS2def, sum_map_sq_eq_sum w h01, hsum]
      rw [hS2]
      norm_num

theorem neff_spec_witness :
    (∀ x ∈ [(1 : ℝ)], 0 ≤ x) ∧ [(1 : ℝ)].sum = 1 ∧
      1 ≤ neff [(1 : ℝ)] ∧ neff [(1 : ℝ)] ≤ (([(1 : ℝ)].length : ℕ) : ℝ) := by
  have hnn : ∀ x ∈ [(1 : ℝ)], 0 ≤ x := by
    intro x hx
    simp at hx
    rw [hx]
    norm_num
  have hsum : [(1 : ℝ)].sum = 1 := by simp
  have h := neff_spec [(1 : ℝ)] hnn hsum
  exact ⟨hnn, hsum, h.2.1, h.2.2.1⟩

/-- Embedding of ParticleFilter.predict (source lines 77 to 86).  The
per-particle standard normal draws are passed in as a list of triples
(one triple per particle).  Column 0 is updated first, column 1 second
using the not yet modified heading column, and column 2 last, so both
position updates read the pre-update heading. -/
def predict (Q : ℝ × ℝ × ℝ) (u : ℝ × ℝ) (dt : ℝ)
    (parts noise : List (ℝ × ℝ × ℝ)) : List (ℝ × ℝ × ℝ) :=
  List.zipWith (fun p n =>
    (p.1 + Real.cos p.2.2 * (u.1 + n.1 * Q.1) * dt,
     p.2.1 + Real.sin p.2.2 * (u.1 + n.2.1 * Q.2.1) * dt,
     wrapToPi (p.2.2 + dt * (u.2 + n.2.2 * Q.2.2)))) parts noise

/-- C7: predict updates every particle independently: x gains
cos(theta) * (forwardSpeed + noise_x * Q0) * dt, y gains
sin(theta) * (forwardSpeed + noise_y * Q1) * dt, both read the pre-update
heading and the same forward-speed control term u.1 with independently
supplied noise, and the heading becomes wrapToPi of
theta + dt * (turnRate + noise_theta * Q2). -/
theorem predict_pointwise (Q : ℝ × ℝ × ℝ) (u : ℝ × ℝ) (dt : ℝ)
    (parts noise : List (ℝ × ℝ × ℝ)) (j : ℕ) (p n : ℝ × ℝ × ℝ)
    (hp : parts.get? j = some p) (hn : noise.get? j = some n) :
    (predict Q u dt parts noise).get? j =
      some (p.1 + Real.cos p.2.2 * (u.1 + n.1 * Q.1) * dt,
        p.2.1 + Real.sin p.2.2 * (u.1 + n.2.1 * Q.2.1) * dt,
        wrapToPi (p.2.2 + dt * (u.2 + n.2.2 * Q.2.2))) :=
  zipWith_get?_eq _ parts noise j p n hp hn

theorem predict_pointwise_witness :
    ([((0 : ℝ), (0 : ℝ), (0 : ℝ))].get? 0 = some ((0 : ℝ), (0 : ℝ), (0 : ℝ))) ∧
      (predict ((1 : ℝ), (1 : ℝ), (1 : ℝ)) ((1 : ℝ), (0 : ℝ)) 1
          [((0 : ℝ), (0 : ℝ), (0 : ℝ))] [((0 : ℝ), (0 : ℝ), (0 : ℝ))]).get? 0 =
        some ((0 : ℝ) + Real.cos (0 : ℝ) * ((1 : ℝ) + (0 : ℝ) * (1 : ℝ)) * 1,
          (0 : ℝ) + Real.sin (0 : ℝ) * ((1 : ℝ) + (0 : ℝ) * (1 : ℝ)) * 1,
          wrapToPi ((0 : ℝ) + 1 * ((0 : ℝ) + (0 : ℝ) * (1 : ℝ)))) :=
  ⟨rfl, predict_pointwise ((1 : ℝ), (1 : ℝ), (1 : ℝ)) ((1 : ℝ), (0 : ℝ)) 1
    [((0 : ℝ), (0 : ℝ), (0 : ℝ))] [((0 : ℝ), (0 : ℝ), (0 : ℝ))] 0
    ((0 : ℝ), (0 : ℝ), (0 : ℝ)) ((0 : ℝ), (0 : ℝ), (0 : ℝ)) rfl rfl⟩

/-- Embedding of create_gaussian_particles (source lines 27 to 34): each
particle is the mean plus the standard normal draw scaled by the per
dimension standard deviation, with the heading then passed through
wrapToPi.  The draws are supplied as a list of triples whose length is the
particle count. -/
def create_gaussian_particles (mean std : ℝ × ℝ × ℝ)
    (noise : List (ℝ × ℝ × ℝ)) : List (ℝ × ℝ × ℝ) :=
  noise.map (fun n =>
    (mean.1 + n.1 * std.1, mean.2.1 + n.2.1 * std.2.1,
     wrapToPi (mean.2.2 + n.2.2 * std.2.2)))

/-- The weight vector built by the ParticleFilter constructor
(source line 71): ones(N) / N. -/
def initWeights (N : ℕ) : List ℝ := List.replicate N (1 / (N : ℝ))

/-- The particle set built by the ParticleFilter constructor
(source line 75): Gaussian particles around the robot pose with standard
deviation 0.1 in every dimension. -/
def initParticles (robot : ℝ × ℝ × ℝ) (noise : List (ℝ × ℝ × ℝ)) :
    List (ℝ × ℝ × ℝ) :=
  create_gaussian_particles robot ((0.1 : ℝ), (0.1 : ℝ), (0.1 : ℝ)) noise

/-- C10: immediately after construction with particle count N > 0 the
weight vector has length N with every entry 1 / N, the particle set has
exactly N particles, and the heading of every particle lies in the
half-open interval from -pi exclusive to pi inclusive. -/
theorem init_invariants (N : ℕ) (_hN : 0 < N) (robot : ℝ × ℝ × ℝ)
    (noise : List (ℝ × ℝ × ℝ)) (hn : noise.length = N) :
    (initWeights N).length = N ∧ (∀ x ∈ initWeights N, x = 1 / (N : ℝ)) ∧
      (initParticles robot noise).length = N ∧
      ∀ p ∈ initParticles robot noise, p.2.2 ∈ Set.Ioc (-π) π := by
  refine ⟨by simp [initWeights], ?_, ?_, ?_⟩
  · intro x hx
    exact List.eq_of_mem_replicate hx
  · simp [initParticles, create_gaussian_particles, hn]
  · intro p hp
    obtain ⟨n, _, rfl⟩ := List.mem_map.mp hp
    exact wrapToPi_mem _

theorem init_invariants_witness :
    0 < 1 ∧ ([((0 : ℝ), (0 : ℝ), (0 : ℝ))] : List (ℝ × ℝ × ℝ)).length = 1 ∧
      (initWeights 1).length = 1 ∧
      (initParticles ((0 : ℝ), (0 : ℝ), (0 : ℝ)) [((0 : ℝ), (0 : ℝ), (0 : ℝ))]).length = 1 := by
  have h := init_invariants 1 (by norm_num) ((0 : ℝ), (0 : ℝ), (0 : ℝ))
    [((0 : ℝ), (0 : ℝ), (0 : ℝ))] rfl
  exact ⟨by norm_num, rfl, h.1, h.2.2.1⟩

/-- Helper for cumsum: running partial sums with an accumulator. -/
def cumsumGo (acc : ℝ) : List ℝ → List ℝ
  | [] => []
  | x :: t => (acc + x) :: cumsumGo (acc + x) t

/-- Embedding of numpy cumsum on a list of reals. -/
def cumsum (l : List ℝ) : List ℝ := cumsumGo 0 l

/-- Overwrite the last entry of a nonempty list, as the numpy assignment
of a value to index -1. -/
def setLast (l : List ℝ) (v : ℝ) : List ℝ :=
  match l with
  | [] => []
  | _ :: _ => l.dropLast ++ [v]

/-- Embedding of numpy searchsorted with side left: the first index whose
entry is greater than or equal to v, or the length when none is. -/
def searchsorted (a : List ℝ) (v : ℝ) : ℕ :=
  match a with
  | [] => 0
  | x :: t => if v ≤ x then 0 else searchsorted t v + 1

/-- Embedding of numpy fancy indexing l[idx]; none models the IndexError
raised by an out of range index. -/
def pyFancy {α : Type} (l : List α) : List ℕ → Option (List α)
  | [] => some []
  | i :: rest =>
      match l.get? i, pyFancy l rest with
      | some a, some tl => some (a :: tl)
      | _, _ => none

/-- Shared tail of every resample method (source lines 115 to 117, 120 to
122, 143 to 145, 162 to 164 and 183 to 185): particles[:] =
particles[indexes], weights[:] = weights[indexes], then fill the weight
array with the fill value.  The slice assignments require the new arrays
to keep the old lengths. -/
def resampleCore (parts : List (ℝ × ℝ × ℝ)) (w : List ℝ) (indexes : List ℕ)
    (fill : ℝ) : Option (List (ℝ × ℝ × ℝ) × List ℝ) :=
  match pyFancy parts indexes, pyFancy w indexes with
  | some p2, some w2 =>
      if p2.length = parts.length ∧ w2.length = w.length
      then some (p2, List.replicate w.length fill)
      else none
  | _, _ => none

/-- Python int truncation toward zero of a real number. -/
def pytrunc (x : ℝ) : ℤ := if 0 ≤ x then ⌊x⌋ else ⌈x⌉

/-- Embedding of ParticleFilter.multinomial_resample (source lines 108 to
117); rands is the list of the uniform draws rand(len(weights)).  The
last cumulative entry is forced to exactly 1 before the searchsorted
lookups, and the weight array is refilled with 1 / N. -/
def multinomial_resample (N : ℕ) (parts : List (ℝ × ℝ × ℝ)) (w : List ℝ)
    (rands : List ℝ) : Option (List (ℝ × ℝ × ℝ) × List ℝ) :=
  resampleCore parts w
    (rands.map (fun u => searchsorted (setLast (cumsum w) 1) u))
    (1 / (N : ℝ))

/-- Embedding of ParticleFilter.resample_from_index (source lines 119 to
122): the caller supplies the index sequence and the weight array is
refilled with 1 / len(weights). -/
def resample_from_index (parts : List (ℝ × ℝ × ℝ)) (w : List ℝ)
    (indexes : List ℕ) : Option (List (ℝ × ℝ × ℝ) × List ℝ) :=
  resampleCore parts w indexes (1 / (w.length : ℝ))

/-- The deterministic index copies of residual resampling (source lines
128 to 134): particle i is copied int(N * w i) times, in index order. -/
def residual_det (N : ℕ) (w : List ℝ) : List ℕ :=
  w.enum.flatMap (fun q => List.replicate (pytrunc ((N : ℝ) * q.2)).toNat q.1)

/-- The residual weights of residual resampling (source line 137): the
weights minus their integer copy counts. -/
def residual_weights (N : ℕ) (w : List ℝ) : List ℝ :=
  w.map (fun x => x - ((pytrunc ((N : ℝ) * x) : ℤ) : ℝ))

/-- The cumulative sum of the renormalized residual weights with the last
entry forced to exactly 1 (source lines 138 to 140). -/
def residual_cumsum (N : ℕ) (w : List ℝ) : List ℝ :=
  setLast (cumsum ((residual_weights N w).map
    (fun x => x / (residual_weights N w).sum))) 1

/-- Index selection of ParticleFilter.residual_resample (source lines 124
to 141): the deterministic copies followed by multinomial draws over the
renormalized residual weights.  None models the IndexError when the
copies overflow the length N index array and the shape error when the
number of supplied draws differs from N minus the number of copies. -/
def residual_indexes (N : ℕ) (w : List ℝ) (rands : List ℝ) : Option (List ℕ) :=
  if (residual_det N w).length ≤ N ∧
      rands.length = N - (residual_det N w).length then
    some (residual_det N w ++
      rands.map (fun u => searchsorted (residual_cumsum N w) u))
  else none

/-- Embedding of ParticleFilter.residual_resample (source lines 124 to
145). -/
def residual_resample (N : ℕ) (parts : List (ℝ × ℝ × ℝ)) (w : List ℝ)
    (rands : List ℝ) : Option (List (ℝ × ℝ × ℝ) × List ℝ) :=
  match residual_indexes N w rands with
  | some indexes => resampleCore parts w indexes (1 / (w.length : ℝ))
  | none => none

/-- The shared two pointer walk of stratified and systematic resampling
(source lines 154 to 160 and 175 to 181): while i < N, append j and
advance i when positions i is below the cumulative sum at j, otherwise
advance j.  None models the IndexError raised when a pointer leaves its
array. -/
def strideWalk (N : ℕ) (positions cs : List ℝ) (i j : ℕ) (acc : List ℕ) :
    Option (List ℕ) :=
  if h1 : i < N then
    if h2 : j < cs.length then
      if h3 : i < positions.length then
        if positions[i] < cs[j] then
          strideWalk N positions cs (i + 1) j (acc ++ [j])
        else strideWalk N positions cs i (j + 1) acc
      else none
    else none
  else some acc
termination_by (N - i) + (cs.length + 1 - j)
decreasing_by
  · omega
  · omega

/-- Index selection of ParticleFilter.stratified_resample (source lines
147 to 160): one uniform draw per stratum, positions (rand i + i) / N. -/
def stratified_indexes (N : ℕ) (w : List ℝ) (rands : List ℝ) :
    Option (List ℕ) :=
  strideWalk N (rands.enum.map (fun q => (q.2 + (q.1 : ℝ)) / (N : ℝ)))
    (cumsum w) 0 0 []

/-- Embedding of ParticleFilter.stratified_resample (source lines 147 to
164). -/
def stratified_resample (N : ℕ) (parts : List (ℝ × ℝ × ℝ)) (w : List ℝ)
    (rands : List ℝ) : Option (List (ℝ × ℝ × ℝ) × List ℝ) :=
  match stratified_indexes N w rands with
  | some indexes => resampleCore parts w indexes (1 / (w.length : ℝ))
  | none => none

/-- Index selection of ParticleFilter.systematic_resample (source lines
166 to 181): one shared offset, positions (i + r) / N. -/
def systematic_indexes (N : ℕ) (w : List ℝ) (r : ℝ) : Option (List ℕ) :=
  strideWalk N ((List.range N).map (fun (i : ℕ) => ((i : ℝ) + r) / (N : ℝ)))
    (cumsum w) 0 0 []

/-- Embedding of ParticleFilter.systematic_resample (source lines 166 to
185). -/
def systematic_resample (N : ℕ) (parts : List (ℝ × ℝ × ℝ)) (w : List ℝ)
    (r : ℝ) : Option (List (ℝ × ℝ × ℝ) × List ℝ) :=
  match systematic_indexes N w r with
  | some indexes => resampleCore parts w indexes (1 / (w.length : ℝ))
  | none => none

lemma resampleCore_some (parts : List (ℝ × ℝ × ℝ)) (w : List ℝ)
    (indexes : List ℕ) (fill : ℝ) (p2 : List (ℝ × ℝ × ℝ)) (w2 : List ℝ)
    (h : resampleCore parts w indexes fill = some (p2, w2)) :
    p2.length = parts.length ∧ w2 = List.replicate w.length fill := by
  unfold resampleCore at h
  cases hp : pyFancy parts indexes with
  | none => rw [hp] at h; simp at h
  | some pp =>
      cases hw : pyFancy w indexes with
      | none => rw [hp, hw] at h; simp at h
      | some ww =>
          rw [hp, hw] at h
          dsimp only at h
          by_cases hc : pp.length = parts.length ∧ ww.length = w.length
          · rw [if_pos hc] at h
            simp only [Option.some.injEq, Prod.mk.injEq] at h
            constructor
            · rw [← h.1]
              exact hc.1
            · exact h.2.symm
          · rw [if_neg hc] at h
            simp at h

/-- C4: whenever any of the five resample operations succeeds on a filter
whose particle set and weight vector both have length N, the resulting
particle set has length exactly N and the resulting weight vector is
exactly the constant vector with every entry 1 / N. -/
theorem resample_postconditions (N : ℕ) (parts : List (ℝ × ℝ × ℝ))
    (w : List ℝ) (hp : parts.length = N) (hw : w.length = N)
    (r1 : List ℝ) (idx : List ℕ) (r3 : List ℝ) (r4 : List ℝ) (r5 : ℝ)
    (o1 o2 o3 o4 o5 : List (ℝ × ℝ × ℝ) × List ℝ)
    (e1 : multinomial_resample N parts w r1 = some o1)
    (e2 : resample_from_index parts w idx = some o2)
    (e3 : residual_resample N parts w r3 = some o3)
    (e4 : stratified_resample N parts w r4 = some o4)
    (e5 : systematic_resample N parts w r5 = some o5) :
    (o1.1.length = N ∧ o1.2 = List.replicate N (1 / (N : ℝ))) ∧
    (o2.1.length = N ∧ o2.2 = List.replicate N (1 / (N : ℝ))) ∧
    (o3.1.length = N ∧ o3.2 = List.replicate N (1 / (N : ℝ))) ∧
    (o4.1.length = N ∧ o4.2 = List.replicate N (1 / (N : ℝ))) ∧
    (o5.1.length = N ∧ o5.2 = List.replicate N (1 / (N : ℝ))) := by
  have hfill : 1 / (w.length : ℝ) = 1 / (N : ℝ) := by rw [hw]
  refine ⟨?_, ?_, ?_, ?_, ?_⟩
  · obtain ⟨h1, h2⟩ := resampleCore_some parts w _ _ o1.1 o1.2 e1
    exact ⟨hp ▸ h1, by rw [h2, hw]⟩
  · obtain ⟨h1, h2⟩ := resampleCore_some parts w _ _ o2.1 o2.2 e2
    exact ⟨hp ▸ h1, by rw [h2, hw]⟩
  · unfold residual_resample at e3
    cases hi : residual_indexes N w r3 with
    | none => rw [hi] at e3; simp at e3
    | some indexes =>
        rw [hi] at e3
        obtain ⟨h1, h2⟩ := resampleCore_some parts w _ _ o3.1 o3.2 e3
        exact ⟨hp ▸ h1, by rw [h2, hw]⟩
  · unfold stratified_resample at e4
    cases hi : stratified_indexes N w r4 with
    | none => rw [hi] at e4; simp at e4
    | some indexes =>
        rw [hi] at e4
        obtain ⟨h1, h2⟩ := resampleCore_some parts w _ _ o4.1 o4.2 e4
        exact ⟨hp ▸ h1, by rw [h2, hw]⟩
  · unfold systematic_resample at e5
    cases hi : systematic_indexes N w r5 with
    | none => rw [hi] at e5; simp at e5
    | some indexes =>
        rw [hi] at e5
        obtain ⟨h1, h2⟩ := resampleCore_some parts w _ _ o5.1 o5.2 e5
        exact ⟨hp ▸ h1, by rw [h2, hw]⟩

lemma cumsum_one : cumsum [(1 : ℝ)] = [1] := by
  simp [cumsum, cumsumGo]

lemma resampleCore_single (fill : ℝ) (hf : fill = 1) :
    resampleCore [((0 : ℝ), (0 : ℝ), (0 : ℝ))] [(1 : ℝ)] [0] fill =
      some ([((0 : ℝ), (0 : ℝ), (0 : ℝ))], [(1 : ℝ)]) := by
  subst hf
  simp [resampleCore, pyFancy]

lemma searchsorted_single : searchsorted [(1 : ℝ)] 0 = 0 := by
  norm_num [searchsorted]

lemma strideWalk_eval1 : strideWalk 1 [(0 : ℝ)] [(1 : ℝ)] 0 0 [] = some [0] := by
  unfold strideWalk
  norm_num
  unfold strideWalk
  norm_num

lemma residual_det_single : residual_det 1 [(1 : ℝ)] = [0] := by
  rw [residual_det, show ([(1 : ℝ)].enum) = [(0, (1 : ℝ))] from rfl]
  norm_num [pytrunc]

theorem resample_postconditions_witness :
    (([((0 : ℝ), (0 : ℝ), (0 : ℝ))] : List (ℝ × ℝ × ℝ)).length = 1 ∧
        ([(1 : ℝ)] : List ℝ) = List.replicate 1 (1 / ((1 : ℕ) : ℝ))) ∧
      (([((0 : ℝ), (0 : ℝ), (0 : ℝ))] : List (ℝ × ℝ × ℝ)).length = 1 ∧
        ([(1 : ℝ)] : List ℝ) = List.replicate 1 (1 / ((1 : ℕ) : ℝ))) ∧
      (([((0 : ℝ), (0 : ℝ), (0 : ℝ))] : List (ℝ × ℝ × ℝ)).length = 1 ∧
        ([(1 : ℝ)] : List ℝ) = List.replicate 1 (1 / ((1 : ℕ) : ℝ))) ∧
      (([((0 : ℝ), (0 : ℝ), (0 : ℝ))] : List (ℝ × ℝ × ℝ)).length = 1 ∧
        ([(1 : ℝ)] : List ℝ) = List.replicate 1 (1 / ((1 : ℕ) : ℝ))) ∧
      (([((0 : ℝ), (0 : ℝ), (0 : ℝ))] : List (ℝ × ℝ × ℝ)).length = 1 ∧
        ([(1 : ℝ)] : List ℝ) = List.replicate 1 (1 / ((1 : ℕ) : ℝ))) := by
  have e1 : multinomial_resample 1 [((0 : ℝ), (0 : ℝ), (0 : ℝ))] [(1 : ℝ)] [(0 : ℝ)] =
      some ([((0 : ℝ), (0 : ℝ), (0 : ℝ))], [(1 : ℝ)]) := by
    unfold multinomial_resample
    rw [cumsum_one, show setLast [(1 : ℝ)] 1 = [(1 : ℝ)] from rfl]
    rw [show List.map (fun u => searchsorted [(1 : ℝ)] u) [(0 : ℝ)] = [0] by
      simp [searchsorted_single]]
    exact resampleCore_single _ (by norm_num)
  have e2 : resample_from_index [((0 : ℝ), (0 : ℝ), (0 : ℝ))] [(1 : ℝ)] [0] =
      some ([((0 : ℝ), (0 : ℝ), (0 : ℝ))], [(1 : ℝ)]) := by
    unfold resample_from_index
    exact resampleCore_single _ (by norm_num)
  have e3 : residual_resample 1 [((0 : ℝ), (0 : ℝ), (0 : ℝ))] [(1 : ℝ)] [] =
      some ([((0 : ℝ), (0 : ℝ), (0 : ℝ))], [(1 : ℝ)]) := by
    unfold residual_resample residual_indexes
    rw [residual_det_single]
    norm_num
    exact resampleCore_single _ (by norm_num)
  have e4 : stratified_resample 1 [((0 : ℝ), (0 : ℝ), (0 : ℝ))] [(1 : ℝ)] [(0 : ℝ)] =
      some ([((0 : ℝ), (0 : ℝ), (0 : ℝ))], [(1 : ℝ)]) := by
    unfold stratified_resample stratified_indexes
    rw [show (([(0 : ℝ)].enum).map (fun q => (q.2 + (q.1 : ℝ)) / ((1 : ℕ) : ℝ))) =
        [(0 : ℝ)] by
      rw [show ([(0 : ℝ)].enum) = [(0, (0 : ℝ))] from rfl]
      norm_num]
    rw [cumsum_one, strideWalk_eval1]
    exact resampleCore_single _ (by norm_num)
  have e5 : systematic_resample 1 [((0 : ℝ), (0 : ℝ), (0 : ℝ))] [(1 : ℝ)] 0 =
      some ([((0 : ℝ), (0 : ℝ), (0 : ℝ))], [(1 : ℝ)]) := by
    unfold systematic_resample systematic_indexes
    rw [show ((List.range 1).map (fun (i : ℕ) => ((i : ℝ) + 0) / ((1 : ℕ) : ℝ))) =
        [(0 : ℝ)] by
      rw [show List.range 1 = [0] from rfl]
      norm_num]
    rw [cumsum_one, strideWalk_eval1]
    exact resampleCore_single _ (by norm_num)
  exact resample_postconditions 1 [((0 : ℝ), (0 : ℝ), (0 : ℝ))] [(1 : ℝ)] rfl rfl
    [(0 : ℝ)] [0] [] [(0 : ℝ)] 0
    ([((0 : ℝ), (0 : ℝ), (0 : ℝ))], [(1 : ℝ)]) ([((0 : ℝ), (0 : ℝ), (0 : ℝ))], [(1 : ℝ)])
    ([((0 : ℝ), (0 : ℝ), (0 : ℝ))], [(1 : ℝ)]) ([((0 : ℝ), (0 : ℝ), (0 : ℝ))], [(1 : ℝ)])
    ([((0 : ℝ), (0 : ℝ), (0 : ℝ))], [(1 : ℝ)]) e1 e2 e3 e4 e5

lemma cumsumGo_replicate_zero (k : ℕ) (acc : ℝ) (rest : List ℝ) :
    cumsumGo acc (List.replicate k 0 ++ rest) =
      List.replicate k acc ++ cumsumGo acc rest := by
  induction k with
  | zero => simp
  | succ m ih =>
      simp only [List.replicate_succ, List.cons_append, cumsumGo, add_zero,
        List.append_eq, ih]

lemma cumsum_point (N j : ℕ) :
    cumsum (List.replicate j 0 ++ (1 : ℝ) :: List.replicate (N - j - 1) 0) =
      List.replicate j 0 ++ (1 : ℝ) :: List.replicate (N - j - 1) 1 := by
  unfold cumsum
  rw [cumsumGo_replicate_zero]
  congr 1
  rw [show cumsumGo (0 : ℝ) ((1 : ℝ) :: List.replicate (N - j - 1) 0) =
      ((0 : ℝ) + 1) :: cumsumGo (0 + 1) (List.replicate (N - j - 1) 0) from rfl]
  rw [zero_add]
  congr 1
  have h := cumsumGo_replicate_zero (N - j - 1) (1 : ℝ) []
  rw [List.append_nil] at h
  simpa [cumsumGo] using h

lemma cs_point_get (N j : ℕ) (hj : j < N) (m : ℕ) (hm : m < N) :
    (List.replicate j (0 : ℝ) ++ (1 : ℝ) :: List.replicate (N - j - 1) 1)[m]? =
      some (if m < j then (0 : ℝ) else 1) := by
  by_cases h : m < j
  · rw [List.getElem?_append_left (by simpa using h)]
    rw [if_pos h]
    exact List.getElem?_replicate_of_lt h
  · rw [List.getElem?_append_right (by simpa using (not_lt.mp h))]
    rw [if_neg h]
    simp only [List.length_replicate]
    rcases Nat.eq_or_lt_of_le (not_lt.mp h) with he | hlt
    · rw [show m - j = 0 by omega]
      exact List.getElem?_cons_zero
    · rw [show m - j = (m - j - 1) + 1 by omega]
      rw [List.getElem?_cons_succ]
      exact List.getElem?_replicate_of_lt (by omega)

lemma strideWalk_point (N j : ℕ) (positions cs : List ℝ) (hj : j < N)
    (hplen : positions.length = N) (hclen : cs.length = N)
    (hpos : ∀ i, i < N → ∃ p, positions[i]? = some p ∧ 0 ≤ p ∧ p < 1)
    (hcs : ∀ m, m < N → cs[m]? = some (if m < j then (0 : ℝ) else 1)) :
    ∀ meas i jj acc, (N - i) + (j - jj) = meas → jj ≤ j →
      strideWalk N positions cs i jj acc =
        some (acc ++ List.replicate (N - i) j) := by
  intro meas
  induction meas using Nat.strong_induction_on with
  | _ meas ih =>
    intro i jj acc hmeas hjj
    by_cases hiN : i < N
    · have hjjN : jj < N := lt_of_le_of_lt hjj hj
      have h2 : jj < cs.length := by omega
      have h3 : i < positions.length := by omega
      obtain ⟨p, hp, hp0, hp1⟩ := hpos i hiN
      have hpv : positions[i] = p := by
        rw [List.getElem?_eq_getElem h3] at hp
        exact Option.some.injEq _ _ ▸ hp |>.symm ▸ rfl
      have hcv : cs[jj] = (if jj < j then (0 : ℝ) else 1) := by
        have hc := hcs jj hjjN
        rw [List.getElem?_eq_getElem h2] at hc
        exact Option.some_injective _ hc
      unfold strideWalk
      rw [dif_pos hiN, dif_pos h2, dif_pos h3]
      by_cases hjlt : jj < j
      · rw [hpv, hcv, if_pos hjlt, if_neg (not_lt.mpr hp0)]
        exact ih ((N - i) + (j - (jj + 1))) (by omega) i (jj + 1) acc rfl (by omega)
      · have hjje : jj = j := by omega
        rw [hpv, hcv, if_neg hjlt, if_pos hp1]
        have hrec := ih ((N - (i + 1)) + (j - jj)) (by omega) (i + 1) jj
          (acc ++ [jj]) rfl hjj
        rw [hrec]
        congr 1
        rw [List.append_assoc]
        congr 1
        rw [hjje, List.singleton_append, ← List.replicate_succ]
        congr 1
        omega
    · unfold strideWalk
      rw [dif_neg hiN]
      rw [show N - i = 0 by omega]
      simp

/-- C8: when the whole weight mass sits on index j, the index selections
of the stratified and systematic resamplers succeed and return exactly N
indices, all equal to j; the uniform draws only need to lie in the
interval from 0 inclusive to 1 exclusive. -/
theorem stratified_systematic_point_mass (N j : ℕ) (hj : j < N)
    (rands : List ℝ) (hr : rands.length = N)
    (hrand : ∀ x ∈ rands, 0 ≤ x ∧ x < 1) (r : ℝ) (hr0 : 0 ≤ r) (hr1 : r < 1) :
    stratified_indexes N
        (List.replicate j 0 ++ (1 : ℝ) :: List.replicate (N - j - 1) 0) rands =
      some (List.replicate N j) ∧
    systematic_indexes N
        (List.replicate j 0 ++ (1 : ℝ) :: List.replicate (N - j - 1) 0) r =
      some (List.replicate N j) := by
  have hN0 : (0 : ℝ) < (N : ℝ) := by
    have : 0 < N := by omega
    exact_mod_cast this
  have hcs : ∀ m, m < N →
      (cumsum (List.replicate j 0 ++ (1 : ℝ) :: List.replicate (N - j - 1) 0))[m]? =
        some (if m < j then (0 : ℝ) else 1) := by
    intro m hm
    rw [cumsum_point]
    exact cs_point_get N j hj m hm
  have hclen :
      (cumsum (List.replicate j 0 ++ (1 : ℝ) :: List.replicate (N - j - 1) 0)).length
        = N := by
    rw [cumsum_point]
    simp only [List.length_append, List.length_replicate, List.length_cons]
    omega
  constructor
  · unfold stratified_indexes
    have hplen : (rands.enum.map fun q => (q.2 + (q.1 : ℝ)) / (N : ℝ)).length = N := by
      rw [List.length_map]
      rw [show rands.enum = rands.enumFrom 0 from rfl, List.enumFrom_length, hr]
    have hpos : ∀ i, i < N →
        ∃ p, (rands.enum.map fun q => (q.2 + (q.1 : ℝ)) / (N : ℝ))[i]? = some p ∧
          0 ≤ p ∧ p < 1 := by
      intro i hi
      have hi2 : i < rands.length := by omega
      have hx := hrand (rands[i]) (List.getElem_mem hi2)
      refine ⟨(rands[i] + (i : ℝ)) / (N : ℝ), ?_, ?_, ?_⟩
      · rw [List.getElem?_map, show rands.enum = rands.enumFrom 0 from rfl,
          List.getElem?_enumFrom, List.getElem?_eq_getElem hi2]
        simp
      · exact div_nonneg (add_nonneg hx.1 (Nat.cast_nonneg i)) (le_of_lt hN0)
      · rw [div_lt_one hN0]
        have hiN : (i : ℝ) + 1 ≤ (N : ℝ) := by exact_mod_cast hi
        linarith [hx.2]
    have h := strideWalk_point N j _ _ hj hplen hclen hpos hcs
      ((N - 0) + (j - 0)) 0 0 [] rfl (Nat.zero_le j)
    simpa using h
  · unfold systematic_indexes
    have hplen : ((List.range N).map fun (i : ℕ) => ((i : ℝ) + r) / (N : ℝ)).length
        = N := by
      rw [List.length_map, List.length_range]
    have hpos : ∀ i, i < N →
        ∃ p, ((List.range N).map fun (i : ℕ) => ((i : ℝ) + r) / (N : ℝ))[i]? = some p ∧
          0 ≤ p ∧ p < 1 := by
      intro i hi
      refine ⟨((i : ℝ) + r) / (N : ℝ), ?_, ?_, ?_⟩
      · rw [List.getElem?_map, List.getElem?_range hi]
        rfl
      · exact div_nonneg (add_nonneg (Nat.cast_nonneg i) hr0) (le_of_lt hN0)
      · rw [div_lt_one hN0]
        have hiN : (i : ℝ) + 1 ≤ (N : ℝ) := by exact_mod_cast hi
        linarith
    have h := strideWalk_point N j _ _ hj hplen hclen hpos hcs
      ((N - 0) + (j - 0)) 0 0 [] rfl (Nat.zero_le j)
    simpa using h

theorem stratified_systematic_point_mass_witness :
    stratified_indexes 2
        (List.replicate 1 0 ++ (1 : ℝ) :: List.replicate (2 - 1 - 1) 0)
        [(0 : ℝ), (0 : ℝ)] = some (List.replicate 2 1) ∧
      systematic_indexes 2
        (List.replicate 1 0 ++ (1 : ℝ) :: List.replicate (2 - 1 - 1) 0) 0 =
      some (List.replicate 2 1) := by
  have hrand : ∀ x ∈ [(0 : ℝ), (0 : ℝ)], 0 ≤ x ∧ x < 1 := by
    intro x hx
    simp only [List.mem_cons, List.not_mem_nil, or_false] at hx
    rcases hx with rfl | rfl <;> norm_num
  exact stratified_systematic_point_mass 2 1 (by norm_num) [(0 : ℝ), (0 : ℝ)] rfl
    hrand 0 (by norm_num) (by norm_num)

lemma length_flatMap_eq {α β : Type} (l : List α) (f : α → List β) :
    (l.flatMap f).length = (l.map fun a => (f a).length).sum := by
  induction l with
  | nil => rfl
  | cons a t ih => simp [ih]

lemma sum_map_mul_const (l : List ℝ) (r : ℝ) :
    (l.map fun x => r * x).sum = r * l.sum := by
  induction l with
  | nil => simp
  | cons a t ih =>
      simp only [List.map_cons, List.sum_cons, ih]
      ring

lemma enumFrom_flatMap_count_lt (c : ℝ → ℕ) :
    ∀ (l : List ℝ) (n i : ℕ), i < n →
      (((l.enumFrom n).flatMap fun q => List.replicate (c q.2) q.1).count i) = 0 := by
  intro l
  induction l with
  | nil => intro n i _; rfl
  | cons a t ih =>
      intro n i hi
      rw [show (a :: t).enumFrom n = (n, a) :: t.enumFrom (n + 1) from rfl]
      rw [List.flatMap_cons, List.count_append]
      rw [List.count_replicate]
      rw [if_neg (by simp; omega)]
      rw [ih (n + 1) i (by omega)]

lemma enumFrom_flatMap_count_ge (c : ℝ → ℕ) :
    ∀ (l : List ℝ) (n k : ℕ) (h : k < l.length),
      (((l.enumFrom n).flatMap fun q => List.replicate (c q.2) q.1).count (n + k)) =
        c (l.get ⟨k, h⟩) := by
  intro l
  induction l with
  | nil => intro n k h; simp at h
  | cons a t ih =>
      intro n k h
      rw [show (a :: t).enumFrom n = (n, a) :: t.enumFrom (n + 1) from rfl]
      rw [List.flatMap_cons, List.count_append, List.count_replicate]
      cases k with
      | zero =>
          rw [if_pos (by simp)]
          rw [enumFrom_flatMap_count_lt c t (n + 1) (n + 0) (by omega)]
          simp
      | succ k2 =>
          rw [if_neg (by simp)]
          have h2 : k2 < t.length := by simpa using h
          have hrec := ih (n + 1) k2 h2
          rw [show n + (k2 + 1) = (n + 1) + k2 by omega]
          rw [hrec]
          rw [Nat.zero_add]
          rfl

lemma residual_det_count (N : ℕ) (w : List ℝ) (i : ℕ) (h : i < w.length) :
    (residual_det N w).count i = (pytrunc ((N : ℝ) * w.get ⟨i, h⟩)).toNat := by
  unfold residual_det
  rw [show w.enum = w.enumFrom 0 from rfl]
  have hc := enumFrom_flatMap_count_ge (fun x => (pytrunc ((N : ℝ) * x)).toNat) w 0 i h
  simpa using hc

lemma mem_of_mem_enum {q : ℕ × ℝ} {w : List ℝ} (hq : q ∈ w.enum) : q.2 ∈ w := by
  have h1 : q.2 ∈ w.enum.map Prod.snd := List.mem_map_of_mem Prod.snd hq
  rw [show w.enum = w.enumFrom 0 from rfl, List.enumFrom_map_snd 0 w] at h1
  exact h1

lemma residual_det_length_le (N : ℕ) (w : List ℝ) (_hw : w.length = N)
    (hnn : ∀ x ∈ w, 0 ≤ x) (hsum : w.sum = 1) :
    (residual_det N w).length ≤ N := by
  have hreal : ((residual_det N w).length : ℝ) ≤ (N : ℝ) := by
    unfold residual_det
    rw [length_flatMap_eq, Nat.cast_list_sum, List.map_map]
    have hle : ((w.enum.map ((fun m : ℕ => (m : ℝ)) ∘
        fun a => (List.replicate (pytrunc ((N : ℝ) * a.2)).toNat a.1).length)).sum ≤
        (w.enum.map fun q => (N : ℝ) * q.2).sum) := by
      apply List.sum_le_sum
      intro q hq
      have hq2 : (0 : ℝ) ≤ q.2 := hnn q.2 (mem_of_mem_enum hq)
      have h0 : (0 : ℝ) ≤ (N : ℝ) * q.2 :=
        mul_nonneg (Nat.cast_nonneg N) hq2
      simp only [Function.comp, List.length_replicate]
      rw [show pytrunc ((N : ℝ) * q.2) = ⌊(N : ℝ) * q.2⌋ from if_pos h0]
      have hfl0 : (0 : ℤ) ≤ ⌊(N : ℝ) * q.2⌋ := Int.floor_nonneg.mpr h0
      have hcast : ((⌊(N : ℝ) * q.2⌋.toNat : ℕ) : ℝ) = ((⌊(N : ℝ) * q.2⌋ : ℤ) : ℝ) := by
        rw [← Int.cast_natCast, Int.toNat_of_nonneg hfl0]
      rw [hcast]
      exact Int.floor_le _
    refine le_trans hle ?_
    have hsnd : w.enum.map (fun q => (N : ℝ) * q.2) = w.map (fun x => (N : ℝ) * x) := by
      rw [show (fun q : ℕ × ℝ => (N : ℝ) * q.2) =
        ((fun x => (N : ℝ) * x) ∘ Prod.snd) from rfl]
      rw [← List.map_map]
      rw [show w.enum = w.enumFrom 0 from rfl, List.enumFrom_map_snd 0 w]
    rw [hsnd, sum_map_mul_const, hsum, mul_one]
  exact_mod_cast hreal

/-- C9: for a normalized non-negative weight vector of length N, residual
resampling deterministically copies particle i exactly floor(N * w i)
times (so a particle of weight one half contributes exactly
floor(N * (1/2)) deterministic copies), the number of deterministic copies
never exceeds N, and with the remaining slots filled by the multinomial
draws over the renormalized residual weights the selected index sequence
has length exactly N. -/
theorem residual_resample_copies (N : ℕ) (w : List ℝ) (hw : w.length = N)
    (hnn : ∀ x ∈ w, 0 ≤ x) (hsum : w.sum = 1) (rands : List ℝ)
    (hr : rands.length = N - (residual_det N w).length) :
    (residual_det N w).length ≤ N ∧
    (∀ i, ∀ h : i < w.length, (residual_det N w).count i =
      (⌊(N : ℝ) * w.get ⟨i, h⟩⌋).toNat) ∧
    Option.map List.length (residual_indexes N w rands) = some N := by
  have hle := residual_det_length_le N w hw hnn hsum
  refine ⟨hle, ?_, ?_⟩
  · intro i h
    rw [residual_det_count N w i h]
    congr 1
    exact if_pos (mul_nonneg (Nat.cast_nonneg N) (hnn _ (List.get_mem w i h)))
  · unfold residual_indexes
    rw [if_pos ⟨hle, hr⟩]
    simp only [Option.map_some', Option.some.injEq, List.length_append,
      List.length_map, hr]
    omega

theorem residual_resample_copies_witness :
    (residual_det 1 [(1 : ℝ)]).length ≤ 1 ∧
      Option.map List.length (residual_indexes 1 [(1 : ℝ)] []) = some 1 := by
  have hnn : ∀ x ∈ [(1 : ℝ)], 0 ≤ x := by
    intro x hx
    simp only [List.mem_singleton] at hx
    rw [hx]
    norm_num
  have hr : ([] : List ℝ).length = 1 - (residual_det 1 [(1 : ℝ)]).length := by
    rw [residual_det_single]
    rfl
  have h := residual_resample_copies 1 [(1 : ℝ)] rfl hnn (by simp) [] hr
  exact ⟨h.1, h.2.2⟩
